import Mathlib

/-!
Verification of the `algorecell_types` strategy data model
(`src/algorecell_types/__init__.py`) against its specification.

The Python module is embedded shallowly:

* Python `dict[str, int]` partial states become association lists in
  insertion order (`PState`); `sorted(state.items())` becomes an insertion
  sort under the lexicographic order on pairs.
* string formatting (`repr`, `"{}={}".format`, `", ".join`, `str(int)`)
  is modelled at the level of character lists, wrapped into `String`;
* Python runtime errors (`AttributeError`, `TypeError`, `AssertionError`)
  become an `Except PyErr` result;
* the `pydot` graph produced by `as_graph` is modelled by its abstract
  content: the list of node names in insertion order and the list of
  edges (source name, destination name, label, tooltip); styling
  attributes (shape, fill, font size) are presentational and carry no
  information used by any claim;
* the `pandas` styling of `as_table` is presentational as well; the table
  is modelled by its row data, with rows deduplicated the way Python
  deduplicates `frozenset`s of `(component, frozenset of values)` pairs.
-/

namespace ART

/-- Python runtime errors that the embedded code can raise. -/
inductive PyErr where
  | attributeError
  | typeError
  | assertionError
deriving DecidableEq

/-- `isOkE e` is `true` iff `e` is a success value (no exception raised). -/
def isOkE {ε α : Type} : Except ε α → Bool
  | .ok _ => true
  | .error _ => false

/-- Kind of a `_Perturbation`: which concrete Python subclass it is. -/
inductive PKind where
  | permanent
  | temporary
  | release
  | instantaneous
deriving DecidableEq

/-- The Python class name of a perturbation kind (`self.__class__.__name__`). -/
def PKind.clsName : PKind → String
  | .permanent => "PermanentPerturbation"
  | .temporary => "TemporaryPerturbation"
  | .release => "ReleasePerturbation"
  | .instantaneous => "InstantaneousPerturbation"

/-- First character of the class name (`self.__class__.__name__[0]`),
used by `get_edge_label`. -/
def PKind.initialChar (k : PKind) : Char := k.clsName.data.headD ' '

/-- A partial state: the items of a Python `dict[str, int]` in insertion
order.  A Python dict has pairwise distinct keys; where a claim needs
that fact it is an explicit hypothesis. -/
abbrev PState := List (String × Int)

/-- A `_Perturbation` object: its concrete class and the partial state
passed to `__init__` (stored as `self.args[0]`). -/
structure Perturbation where
  kind : PKind
  state : PState

/-- Decimal digit characters of `n`, most significant first, with enough
fuel; models the digit loop of Python `str` on a non-negative integer. -/
def natCharsAux : Nat → Nat → List Char
  | 0, _ => []
  | fuel + 1, n => if n = 0 then [] else natCharsAux fuel (n / 10) ++ [Nat.digitChar (n % 10)]

/-- Python `str(n)` for a natural number `n`, as a character list. -/
def natChars (n : Nat) : List Char := if n = 0 then ['0'] else natCharsAux n n

/-- Python `str(v)` for an integer `v`, as a character list: a minus sign
followed by the decimal digits when `v < 0`, plain digits otherwise. -/
def intChars (v : Int) : List Char :=
  if v < 0 then '-' :: natChars v.natAbs else natChars v.toNat

/-- Characters of `"{}={}".format(k, v)` for one state item, as produced
inside `_Perturbation.repr_args`. -/
def entryChars (kv : String × Int) : List Char := kv.1.data ++ '=' :: intChars kv.2

/-- `sep.join(parts)`: Python string join, at the character-list level. -/
def joinChars (sep : List Char) : List (List Char) → List Char
  | [] => []
  | [x] => x
  | x :: y :: xs => x ++ sep ++ joinChars sep (y :: xs)

/-- Python string comparison `a < b`: lexicographic on code points. -/
def strLtB : List Char → List Char → Bool
  | [], [] => false
  | [], _ :: _ => true
  | _ :: _, [] => false
  | c :: a, d :: b =>
    if c.toNat < d.toNat then true
    else if d.toNat < c.toNat then false
    else strLtB a b

/-- The order used by Python `sorted` on `(str, int)` pairs: lexicographic,
key first (Python string comparison), then value. -/
def pairLe (a b : String × Int) : Prop :=
  strLtB a.1.data b.1.data = true ∨ (a.1 = b.1 ∧ a.2 ≤ b.2)

instance : DecidableRel pairLe := fun a b =>
  inferInstanceAs (Decidable (strLtB a.1.data b.1.data = true ∨ (a.1 = b.1 ∧ a.2 ≤ b.2)))

/-- `sorted(state.items())`: the items sorted by the pair order.  Python
uses a comparison sort; any sort yields the same list because `pairLe`
is a total, transitive, antisymmetric order. -/
def sortItems (st : PState) : PState := List.insertionSort pairLe st

/-- Characters of `_Perturbation.repr_args()`: the sorted items rendered
`k=v` and joined with `", "`. -/
def reprArgsChars (st : PState) : List Char :=
  joinChars [',', ' '] (List.map entryChars (sortItems st))

/-- Characters of `repr(p)`: `ClassName(` + `repr_args()` + `)`. -/
def reprChars (p : Perturbation) : List Char :=
  p.kind.clsName.data ++ '(' :: (reprArgsChars p.state ++ [')'])

/-- `repr(p)` as a string. -/
def pyRepr (p : Perturbation) : String := ⟨reprChars p⟩

/-- `_Perturbation.__eq__`: `repr(self) == repr(p2)`. -/
def pyEq (p q : Perturbation) : Bool := pyRepr p == pyRepr q

/-- Modelled from the spec: CPython hashes a `str` with a process-keyed
SipHash; within one process it is a fixed, content-determined function of
the character sequence, which is all the hash claims use.  We model it by
an explicit content-determined function. -/
def pyHashStr (s : String) : Nat :=
  s.data.foldl (fun a c => (a * 1000003 + c.toNat) % 2305843009213693951) 5381

/-- `_Perturbation.__hash__`: `hash(repr(self))`. -/
def pyHash (p : Perturbation) : Nat := pyHashStr (pyRepr p)

/-- `_Perturbation.get_edge_label(compact)`. -/
def edgeLabel (p : Perturbation) (compact : Bool) : String :=
  if compact then ⟨p.kind.initialChar :: '(' :: (natChars p.state.length ++ [')'])⟩
  else ⟨p.kind.initialChar :: '(' :: (reprArgsChars p.state ++ [')'])⟩

/-- Which concrete `FromState` subclass a state strategy is;
it only affects the alias template and the node styling. -/
inductive StateKind where
  | plain
  | condition
  | steady
  | limitCycle
deriving DecidableEq

/-- The `alias_template` class attribute of each `FromState` subclass. -/
def StateKind.aliasTemplate : StateKind → String
  | .plain => "s\x7b\x7d"
  | .condition => "c\x7b\x7d"
  | .steady => "a\x7b\x7d"
  | .limitCycle => "a\x7b\x7d"

/-- A `_Strategy` object.  `FromAny` stores `(perturbation, next?)`;
`FromState` and its subclasses store `(state key, perturbation, next?)`.
The constructors assert at most one successor, so the successor is an
`Option`; the asserting constructors themselves are `FromAny.make` and
`FromState.make` below. -/
inductive Strategy where
  | fromAny (p : Perturbation) (next : Option Strategy)
  | fromState (v : StateKind) (key : String) (p : Perturbation) (next : Option Strategy)

/-- `FromAny(perturbation, *seq)`: `assert len(seq) <= 1`, then the args
tuple is stored.  A failed Python `assert` raises `AssertionError`. -/
def FromAny.make (p : Perturbation) (seq : List Strategy) : Except PyErr Strategy :=
  if seq.length ≤ 1 then .ok (.fromAny p seq.head?) else .error .assertionError

/-- `FromState(state, perturbation, *seq)` (also covering the
`FromCondition`, `FromSteadyState` and `FromOneInLimitCycle` subclasses):
`assert len(seq) <= 1`, then the args tuple is stored. -/
def FromState.make (v : StateKind) (key : String) (p : Perturbation)
    (seq : List Strategy) : Except PyErr Strategy :=
  if seq.length ≤ 1 then .ok (.fromState v key p seq.head?) else .error .assertionError

/-- `self.perturbation()`: `args[0]` for `FromAny`, `args[1]` for `FromState`. -/
def Strategy.perturbation : Strategy → Perturbation
  | .fromAny p _ => p
  | .fromState _ _ p _ => p

/-- `self.next()`: the optional successor (`args[1]` resp. `args[2]` when
present, `None` otherwise). -/
def Strategy.next : Strategy → Option Strategy
  | .fromAny _ n => n
  | .fromState _ _ _ n => n

/-- The name of the node returned by `make_start_node`: the literal
`"any"` for `FromAny`, the state key for `FromState` and subclasses. -/
def Strategy.startName : Strategy → String
  | .fromAny _ _ => "any"
  | .fromState _ k _ _ => k

/-- `_Strategy.perturbation_sequence()`: `(self.perturbation(),)` extended
by the successor's sequence when a successor exists. -/
def Strategy.perturbationSequence : Strategy → List Perturbation
  | .fromAny p none => [p]
  | .fromAny p (some t) => p :: t.perturbationSequence
  | .fromState _ _ p none => [p]
  | .fromState _ _ p (some t) => p :: t.perturbationSequence

/-- The hops of a strategy chain, head first: the strategy itself, then
the hops of its successor (walking `next()` until `None`). -/
def Strategy.chainHops : Strategy → List Strategy
  | s@(.fromAny _ none) => [s]
  | .fromAny p (some t) => Strategy.fromAny p (some t) :: t.chainHops
  | s@(.fromState _ _ _ none) => [s]
  | .fromState v k p (some t) => Strategy.fromState v k p (some t) :: t.chainHops

/-- The start-node names along a chain, head first. -/
def Strategy.hopLabels : Strategy → List String
  | .fromAny _ none => ["any"]
  | .fromAny _ (some t) => "any" :: t.hopLabels
  | .fromState _ k _ none => [k]
  | .fromState _ k _ (some t) => k :: t.hopLabels

/-- A Python value stored in a `_SymbolicType.args` tuple. -/
inductive PyVal where
  | str (s : String)
  | pert (p : Perturbation)
  | strat (s : Strategy)

/-- The `args` tuple stored by `_SymbolicType.__init__` for a strategy:
`(perturbation,)` or `(perturbation, next)` for `FromAny`;
`(key, perturbation)` or `(key, perturbation, next)` for `FromState`. -/
def Strategy.argsTuple : Strategy → List PyVal
  | .fromAny p none => [.pert p]
  | .fromAny p (some t) => [.pert p, .strat t]
  | .fromState _ k p none => [.str k, .pert p]
  | .fromState _ k p (some t) => [.str k, .pert p, .strat t]

/-- Python tuple item assignment `t[i] = x`: tuples are immutable, so this
always raises `TypeError` regardless of the index or value. -/
def tupleSetItem (t : List PyVal) (i : Nat) (x : PyVal) : Except PyErr (List PyVal) :=
  Except.error PyErr.typeError

/-- `FromState.replace_key(key)`: executes `self.args[0] = key`, an item
assignment on the `args` tuple stored by `_SymbolicType.__init__`.
On success it would return the updated args tuple. -/
def FromState.replaceKey (s : Strategy) (key : String) : Except PyErr (List PyVal) :=
  tupleSetItem s.argsTuple 0 (.str key)

/-- An edge of the `pydot` graph: endpoint node names, `label`, and
`labeltooltip` (the full perturbation repr). -/
structure GEdge where
  src : String
  dst : String
  label : String
  tooltip : String
deriving DecidableEq

/-- The abstract content of a `pydot.Dot` graph: node names in insertion
order and edges in insertion order. -/
structure Graph where
  nodes : List String
  edges : List GEdge
deriving DecidableEq

/-- `if not g.get_node(name): g.add_node(node)` — a node is added only if
no node with that name is already present. -/
def addNodeIfAbsent (g : Graph) (n : String) : Graph :=
  if n ∈ g.nodes then g else { g with nodes := g.nodes ++ [n] }

/-- `g.add_edge(edge)`. -/
def addEdge (g : Graph) (e : GEdge) : Graph := { g with edges := g.edges ++ [e] }

/-- `_Strategy.fill_graph(g, target, compact)`: add the start node unless
one with the same name exists, recurse into the successor (whose returned
start node becomes the edge target), then add the edge labelled by this
hop's perturbation.  Returns the updated graph and the start-node name. -/
def fillGraph : Strategy → Graph → String → Bool → Graph × String
  | .fromAny p none, g, target, compact =>
    let g1 := addNodeIfAbsent g "any"
    (addEdge g1 ⟨"any", target, edgeLabel p compact, pyRepr p⟩, "any")
  | .fromAny p (some t), g, target, compact =>
    let g1 := addNodeIfAbsent g "any"
    let r := fillGraph t g1 target compact
    (addEdge r.1 ⟨"any", r.2, edgeLabel p compact, pyRepr p⟩, "any")
  | .fromState _ k p none, g, target, compact =>
    let g1 := addNodeIfAbsent g k
    (addEdge g1 ⟨k, target, edgeLabel p compact, pyRepr p⟩, k)
  | .fromState _ k p (some t), g, target, compact =>
    let g1 := addNodeIfAbsent g k
    let r := fillGraph t g1 target compact
    (addEdge r.1 ⟨k, r.2, edgeLabel p compact, pyRepr p⟩, k)

/-- The nodes of a graph other than the shared sink `"target"`. -/
def Graph.startNodes (g : Graph) : List String :=
  g.nodes.filter (fun n => n != "target")

/-- Metadata properties attached to a strategy by `add` (`**props`). -/
abbrev Props := List (String × String)

/-- `dict.get(k)` on an association list keyed by `κ`. -/
def dictGet {κ α : Type} [BEq κ] (m : List (κ × α)) (k : κ) : Option α :=
  (m.find? (fun e => e.1 == k)).map (fun e => e.2)

/-- `d[k] = v` on an association list: update in place when the key is
present (insertion order preserved), append otherwise. -/
def dictSet {κ α : Type} [BEq κ] (m : List (κ × α)) (k : κ) (v : α) : List (κ × α) :=
  if (m.find? (fun e => e.1 == k)).isSome then
    m.map (fun e => if e.1 == k then (e.1, v) else e)
  else m ++ [(k, v)]

/-- A `ReprogrammingStrategies` object: the `__d` list of
(strategy, properties) pairs, the `__aliases` dict, and the
`__autoaliases` dict of per-pattern registries.  `__init__` creates only
these three attributes; in particular the `__known_alias` attribute read
by `autoalias` is never created. -/
structure RS where
  d : List (Strategy × Props)
  aliases : List (String × PState)
  autoaliases : List (String × List (PState × String))

/-- `ReprogrammingStrategies()`. -/
def RS.new : RS := ⟨[], [], []⟩

/-- `add(s, **props)`: append the pair to `__d`. -/
def RS.add (rs : RS) (s : Strategy) (props : Props) : RS :=
  { rs with d := rs.d ++ [(s, props)] }

/-- `register_alias(name, state)`: `self.__aliases[name] = state`. -/
def RS.registerAlias (rs : RS) (name : String) (state : PState) : RS :=
  { rs with aliases := dictSet rs.aliases name state }

/-- Python `pattern.format(n)` for the patterns used here: substitute the
first `\x7b\x7d` placeholder with the decimal rendering of `n`. -/
def formatPat : List Char → Nat → List Char
  | [], _ => []
  | c :: rest, n =>
    if c = Char.ofNat 123 then
      match rest with
      | c2 :: rest2 =>
        if c2 = Char.ofNat 125 then natChars n ++ rest2 else c :: formatPat rest n
      | [] => [c]
    else c :: formatPat rest n

/-- `autoalias(pattern, state)`.  The code computes the structural key
`tuple(sorted(state.items()))` and reads `self.__autoaliases.get(pattern)`;
when the registry is missing or empty (`if not reg:`) it executes
`reg = self.__known_alias[pattern] = {}`, which raises `AttributeError`
because `__init__` never created `self.__known_alias`.  Otherwise it
returns the cached name, or formats, caches and registers a fresh one. -/
def RS.autoalias (rs : RS) (pattern : String) (state : PState) :
    Except PyErr (String × RS) :=
  let h := sortItems state
  match dictGet rs.autoaliases pattern with
  | none => .error .attributeError
  | some reg =>
    if reg.isEmpty then .error .attributeError
    else
      match dictGet reg h with
      | some a => .ok (a, rs)
      | none =>
        let a : String := ⟨formatPat pattern.data reg.length⟩
        let rs2 := { rs with autoaliases := dictSet rs.autoaliases pattern (dictSet reg h a) }
        .ok (a, rs2.registerAlias a state)

/-- `as_graph(compact)`: start from a graph holding only the sink node
`"target"`, then let every registered strategy fill it in. -/
def RS.asGraph (rs : RS) (compact : Bool) : Graph :=
  rs.d.foldl (fun g a => (fillGraph a.1 g "target" compact).1) ⟨["target"], []⟩

/-- Elementwise Python `==` on perturbation tuples: tuple equality uses
the elements' `__eq__`, which compares reprs. -/
def pseqBeq (a b : List Perturbation) : Bool :=
  a.length == b.length && (a.zip b).all (fun q => pyEq q.1 q.2)

/-- `ps.add(seq)` on the Python set of perturbation sequences, modelled as
a list in first-insertion order with tuple-`==` deduplication. -/
def insertPseq (s : List (List Perturbation)) (x : List Perturbation) :
    List (List Perturbation) :=
  if s.any (fun y => pseqBeq y x) then s else s ++ [x]

/-- `perturbations()`: the set of `perturbation_sequence()` values of the
registered strategies. -/
def RS.perturbationsList (rs : RS) : List (List Perturbation) :=
  rs.d.foldl (fun ps a => insertPseq ps a.1.perturbationSequence) []

/-- One step of the `mods` accumulation in `as_table`: `mods[n].add(v)`,
creating the value set when the component is new.  A Python set is
modelled as a duplicate-free list in insertion order. -/
def addModValue (m : List (String × List Int)) (n : String) (v : Int) :
    List (String × List Int) :=
  match dictGet m n with
  | none => m ++ [(n, [v])]
  | some vs => dictSet m n (if vs.contains v then vs else vs ++ [v])

/-- The inner loop of `as_table` over one perturbation's items:
`assert v == 0 or v == 1`, then accumulate the value into `mods[n]`. -/
def foldPertItems : List (String × Int) → List (String × List Int) →
    Except PyErr (List (String × List Int))
  | [], m => .ok m
  | (n, v) :: rest, m =>
    if v = 0 ∨ v = 1 then foldPertItems rest (addModValue m n v)
    else .error .assertionError

/-- The loop of `as_table` over one strategy's perturbation sequence. -/
def collectMods : List Perturbation → List (String × List Int) →
    Except PyErr (List (String × List Int))
  | [], m => .ok m
  | p :: ps, m =>
    match foldPertItems p.state m with
    | .error e => .error e
    | .ok m2 => collectMods ps m2

/-- Canonical form of the frozenset `as_table` builds from one strategy's
`mods`: entries sorted by component name with each value set sorted.
Two `mods` dicts denote the same frozenset exactly when their canonical
forms coincide (component keys are unique within a `mods` dict). -/
def canonRow (m : List (String × List Int)) : List (String × List Int) :=
  List.insertionSort (fun a b => a.1 ≤ b.1)
    (m.map (fun e => (e.1, List.insertionSort (fun x y => x ≤ y) e.2)))

/-- The loop of `as_table` over the registered strategies, building the
deduplicated set `l` of per-strategy rows (kept in canonical form). -/
def tableAccum : List (Strategy × Props) → List (List (String × List Int)) →
    Except PyErr (List (List (String × List Int)))
  | [], acc => .ok acc
  | a :: rest, acc =>
    match collectMods a.1.perturbationSequence [] with
    | .error e => .error e
    | .ok mods =>
      let row := canonRow mods
      tableAccum rest (if acc.contains row then acc else acc ++ [row])

/-- `fmt(vs)` in `as_table`: the single value rendered by `str` when the
set is a singleton, the ambiguity marker `"*"` otherwise. -/
def fmtCell (vs : List Int) : String :=
  match vs with
  | [v] => ⟨intChars v⟩
  | _ => "*"

/-- `as_table()` up to its data content: the deduplicated rows, each a
mapping from component name to cell symbol.  The subsequent `pandas`
construction, row/column sorting and cell colouring are presentational
and always succeed, so the claims about failure and row count are decided
here. -/
def RS.asTableRows (rs : RS) :
    Except PyErr (List (List (String × String))) :=
  match tableAccum rs.d [] with
  | .error e => .error e
  | .ok rows => .ok (rows.map (fun m => m.map (fun e => (e.1, fmtCell e.2))))

/-! ### Basic chain lemmas -/

theorem pseq_eq_map : (s : Strategy) →
    s.perturbationSequence = s.chainHops.map Strategy.perturbation
  | .fromAny _ none => rfl
  | .fromAny p (some t) => by
    simp [Strategy.perturbationSequence, Strategy.chainHops, Strategy.perturbation,
      pseq_eq_map t]
  | .fromState _ _ _ none => rfl
  | .fromState v k p (some t) => by
    simp [Strategy.perturbationSequence, Strategy.chainHops, Strategy.perturbation,
      pseq_eq_map t]

theorem pseq_ne_nil (s : Strategy) : s.perturbationSequence ≠ [] := by
  cases s with
  | fromAny p n => cases n <;> simp [Strategy.perturbationSequence]
  | fromState v k p n => cases n <;> simp [Strategy.perturbationSequence]

theorem pseq_head (s : Strategy) :
    s.perturbationSequence.head? = some s.perturbation := by
  cases s with
  | fromAny p n => cases n <;> simp [Strategy.perturbationSequence, Strategy.perturbation]
  | fromState v k p n => cases n <;> simp [Strategy.perturbationSequence, Strategy.perturbation]

theorem chainHops_length_pos (s : Strategy) : 1 ≤ s.chainHops.length := by
  cases s with
  | fromAny p n => cases n <;> simp [Strategy.chainHops]
  | fromState v k p n => cases n <;> simp [Strategy.chainHops]

/-- C6: for every strategy, `perturbation_sequence()` lists exactly one
perturbation per hop of the chain obtained by walking `next()` until
`None`, in head-to-tail order: it equals the hop list mapped through
`perturbation()`, so its length is the chain length and its `i`-th element
is the `i`-th hop's perturbation.  (It is a pure function of the chain,
hence deterministic.) -/
theorem perturbation_sequence_spec (s : Strategy) :
    s.perturbationSequence = s.chainHops.map Strategy.perturbation ∧
    s.perturbationSequence.length = s.chainHops.length ∧
    ∀ i : Nat, s.perturbationSequence[i]? = s.chainHops[i]?.map Strategy.perturbation := by
  refine ⟨pseq_eq_map s, ?_, ?_⟩
  · rw [pseq_eq_map s, List.length_map]
  · intro i
    rw [pseq_eq_map s, List.getElem?_map]

/-! ### Set of perturbation sequences and graph edge counts -/

theorem mem_insertPseq {s : List (List Perturbation)} {x y : List Perturbation}
    (h : y ∈ insertPseq s x) : y ∈ s ∨ y = x := by
  unfold insertPseq at h
  split at h
  · exact Or.inl h
  · rcases List.mem_append.1 h with h1 | h1
    · exact Or.inl h1
    · exact Or.inr (List.mem_singleton.1 h1)

theorem mem_foldl_insertPseq :
    ∀ (l : List (Strategy × Props)) (acc : List (List Perturbation))
      (x : List Perturbation),
      x ∈ l.foldl (fun ps a => insertPseq ps a.1.perturbationSequence) acc →
      x ∈ acc ∨ ∃ a ∈ l, x = a.1.perturbationSequence
  | [], acc, x, h => Or.inl h
  | a :: rest, acc, x, h => by
    rcases mem_foldl_insertPseq rest _ x h with h1 | ⟨b, hb, hx⟩
    · rcases mem_insertPseq h1 with h2 | h2
      · exact Or.inl h2
      · exact Or.inr ⟨a, List.mem_cons_self a rest, h2⟩
    · exact Or.inr ⟨b, List.mem_cons_of_mem a hb, hx⟩

theorem fillGraph_edges_length : ∀ (s : Strategy) (g : Graph) (t : String) (c : Bool),
    (fillGraph s g t c).1.edges.length = g.edges.length + s.chainHops.length
  | .fromAny p none, g, t, c => by
    simp [fillGraph, addEdge, addNodeIfAbsent, Strategy.chainHops]
    split <;> simp
  | .fromAny p (some u), g, t, c => by
    have hn : (addNodeIfAbsent g "any").edges = g.edges := by
      unfold addNodeIfAbsent; split <;> rfl
    have ih := fillGraph_edges_length u (addNodeIfAbsent g "any") t c
    rw [hn] at ih
    simp only [fillGraph, addEdge, Strategy.chainHops, List.length_append,
      List.length_cons, List.length_nil, ih]
    omega
  | .fromState v k p none, g, t, c => by
    simp [fillGraph, addEdge, addNodeIfAbsent, Strategy.chainHops]
    split <;> simp
  | .fromState v k p (some u), g, t, c => by
    have hn : (addNodeIfAbsent g k).edges = g.edges := by
      unfold addNodeIfAbsent; split <;> rfl
    have ih := fillGraph_edges_length u (addNodeIfAbsent g k) t c
    rw [hn] at ih
    simp only [fillGraph, addEdge, Strategy.chainHops, List.length_append,
      List.length_cons, List.length_nil, ih]
    omega

theorem foldl_fillGraph_edges_ge :
    ∀ (l : List (Strategy × Props)) (g : Graph) (c : Bool),
      g.edges.length + l.length ≤
        (l.foldl (fun g a => (fillGraph a.1 g "target" c).1) g).edges.length
  | [], g, c => by simp
  | a :: rest, g, c => by
    have h1 := fillGraph_edges_length a.1 g "target" c
    have h2 := foldl_fillGraph_edges_ge rest (fillGraph a.1 g "target" c).1 c
    have h3 := chainHops_length_pos a.1
    simp only [List.foldl_cons, List.length_cons]
    omega

/-- C10: every strategy's `perturbation_sequence()` is non-empty — it has
length at least `1` and starts with the head's `perturbation()` — so the
set returned by `perturbations()` never contains an empty sequence, and
every registered strategy contributes at least one edge to `as_graph`. -/
theorem perturbation_sequence_nonempty_spec :
    (∀ s : Strategy, s.perturbationSequence ≠ [] ∧
      1 ≤ s.perturbationSequence.length ∧
      s.perturbationSequence.head? = some s.perturbation)
    ∧ (∀ rs : RS, ∀ x ∈ rs.perturbationsList, x ≠ [])
    ∧ (∀ (rs : RS) (c : Bool), rs.d.length ≤ (rs.asGraph c).edges.length) := by
  refine ⟨fun s => ⟨pseq_ne_nil s, ?_, pseq_head s⟩, fun rs x hx => ?_, fun rs c => ?_⟩
  · have := pseq_ne_nil s
    cases h : s.perturbationSequence with
    | nil => exact absurd h this
    | cons a l => simp
  · rcases mem_foldl_insertPseq rs.d [] x hx with h | ⟨a, _, hx2⟩
    · simp at h
    · rw [hx2]; exact pseq_ne_nil a.1
  · have := foldl_fillGraph_edges_ge rs.d ⟨["target"], []⟩ c
    simpa [RS.asGraph] using this

/-- C8: constructing a strategy (`FromAny` or any `FromState` variant)
with more than one successor fails immediately at construction with an
`AssertionError`; constructing it with zero or one successor succeeds. -/
theorem strategy_constructor_arity (p : Perturbation) (v : StateKind)
    (key : String) (seq : List Strategy) :
    (1 < seq.length →
      isOkE (FromAny.make p seq) = false ∧ isOkE (FromState.make v key p seq) = false)
    ∧ (seq.length ≤ 1 →
      isOkE (FromAny.make p seq) = true ∧ isOkE (FromState.make v key p seq) = true) := by
  constructor
  · intro h
    have h2 : ¬ seq.length ≤ 1 := by omega
    simp [FromAny.make, FromState.make, h2, isOkE]
  · intro h
    simp [FromAny.make, FromState.make, h, isOkE]

theorem strategy_constructor_arity_witness :
    (isOkE (FromAny.make ⟨.permanent, [("a", 1)]⟩
        [.fromAny ⟨.permanent, [("a", 1)]⟩ none, .fromAny ⟨.permanent, [("a", 1)]⟩ none]) = false
      ∧ isOkE (FromState.make .steady "s0" ⟨.permanent, [("a", 1)]⟩
        [.fromAny ⟨.permanent, [("a", 1)]⟩ none, .fromAny ⟨.permanent, [("a", 1)]⟩ none]) = false)
    ∧ (isOkE (FromAny.make ⟨.permanent, [("a", 1)]⟩ []) = true
      ∧ isOkE (FromState.make .steady "s0" ⟨.permanent, [("a", 1)]⟩ []) = true) :=
  ⟨(strategy_constructor_arity ⟨.permanent, [("a", 1)]⟩ .steady "s0"
      [.fromAny ⟨.permanent, [("a", 1)]⟩ none, .fromAny ⟨.permanent, [("a", 1)]⟩ none]).1
      (by simp),
   (strategy_constructor_arity ⟨.permanent, [("a", 1)]⟩ .steady "s0" []).2 (by simp)⟩

/-- C7: on a freshly constructed collection with no strategies,
`as_graph` returns a graph with exactly the sink node `"target"` and no
edges, `as_table` succeeds with zero rows, and `perturbations()` is the
empty set. -/
theorem empty_collection_spec (c : Bool) :
    RS.new.asGraph c = ⟨["target"], []⟩ ∧
    RS.new.asTableRows = .ok [] ∧
    RS.new.perturbationsList = [] :=
  ⟨rfl, rfl, rfl⟩

/-- C2: `replace_key` executes `self.args[0] = key`, but
`_SymbolicType.__init__` stores `args` as a Python tuple, so the item
assignment raises `TypeError` for every `FromState` strategy and every
key; in particular no field is ever rewritten. -/
theorem replace_key_type_error (v : StateKind) (k key : String)
    (p : Perturbation) (n : Option Strategy) :
    FromState.replaceKey (.fromState v k p n) key = .error .typeError := rfl

/-! ### Reachable collection states and `autoalias` -/

/-- The `ReprogrammingStrategies` states reachable through the public
API: a fresh object, mutated by `add`, `register_alias`, and any
succeeding `autoalias` call. -/
inductive Reach : RS → Prop where
  | new : Reach RS.new
  | add (rs : RS) (s : Strategy) (props : Props) :
      Reach rs → Reach (rs.add s props)
  | registerAlias (rs : RS) (n : String) (st : PState) :
      Reach rs → Reach (rs.registerAlias n st)
  | autoalias (rs : RS) (pat : String) (st : PState) (a : String) (rs2 : RS) :
      Reach rs → rs.autoalias pat st = .ok (a, rs2) → Reach rs2

theorem reach_autoaliases_nil {rs : RS} (h : Reach rs) : rs.autoaliases = [] := by
  induction h with
  | new => rfl
  | add rs s props _ ih => simpa [RS.add] using ih
  | registerAlias rs n st _ ih => simpa [RS.registerAlias] using ih
  | autoalias rs pat st a rs2 _ heq ih =>
    exfalso
    rw [RS.autoalias, ih] at heq
    simp [dictGet] at heq

/-- C1: `autoalias` never returns a name on any API-reachable collection:
`__init__` creates `__d`, `__aliases` and `__autoaliases` but never
`__known_alias`, and `__autoaliases` is never populated, so every call
reaches `reg = self.__known_alias[pattern] = {}` and raises
`AttributeError` instead of caching or returning an alias. -/
theorem autoalias_attribute_error (rs : RS) (h : Reach rs)
    (pattern : String) (state : PState) :
    rs.autoalias pattern state = .error .attributeError := by
  rw [RS.autoalias, reach_autoaliases_nil h]
  simp [dictGet]

theorem autoalias_attribute_error_witness :
    RS.new.autoalias "s\x7b\x7d" [("a", 1)] = .error .attributeError :=
  autoalias_attribute_error RS.new Reach.new "s\x7b\x7d" [("a", 1)]

/-! ### Graph node bookkeeping -/

theorem nodes_addEdge (g : Graph) (e : GEdge) : (addEdge g e).nodes = g.nodes := rfl

theorem mem_addNodeIfAbsent (g : Graph) (n x : String) :
    x ∈ (addNodeIfAbsent g n).nodes ↔ x ∈ g.nodes ∨ x = n := by
  unfold addNodeIfAbsent
  split
  · rename_i h
    exact ⟨Or.inl, fun hx => hx.elim id (fun hxe => hxe ▸ h)⟩
  · simp

theorem nodup_addNodeIfAbsent (g : Graph) (n : String) (h : g.nodes.Nodup) :
    (addNodeIfAbsent g n).nodes.Nodup := by
  unfold addNodeIfAbsent
  split
  · exact h
  · rename_i h2
    simp only [List.nodup_append, List.nodup_cons, List.not_mem_nil, not_false_iff,
      List.nodup_nil, and_true, true_and]
    exact ⟨h, fun a ha => by simp only [List.mem_singleton]; rintro rfl; exact h2 ha⟩

theorem fillGraph_mem_nodes : ∀ (s : Strategy) (g : Graph) (t : String) (c : Bool)
    (x : String), x ∈ (fillGraph s g t c).1.nodes ↔ x ∈ g.nodes ∨ x ∈ s.hopLabels
  | .fromAny p none, g, t, c, x => by
    simp [fillGraph, addEdge, mem_addNodeIfAbsent, Strategy.hopLabels]
  | .fromAny p (some u), g, t, c, x => by
    simp only [fillGraph, addEdge, fillGraph_mem_nodes u, mem_addNodeIfAbsent,
      Strategy.hopLabels, List.mem_cons, or_assoc]
  | .fromState v k p none, g, t, c, x => by
    simp [fillGraph, addEdge, mem_addNodeIfAbsent, Strategy.hopLabels]
  | .fromState v k p (some u), g, t, c, x => by
    simp only [fillGraph, addEdge, fillGraph_mem_nodes u, mem_addNodeIfAbsent,
      Strategy.hopLabels, List.mem_cons, or_assoc]

theorem fillGraph_nodup : ∀ (s : Strategy) (g : Graph) (t : String) (c : Bool),
    g.nodes.Nodup → (fillGraph s g t c).1.nodes.Nodup
  | .fromAny p none, g, t, c, h => nodup_addNodeIfAbsent g "any" h
  | .fromAny p (some u), g, t, c, h =>
    fillGraph_nodup u (addNodeIfAbsent g "any") t c (nodup_addNodeIfAbsent g "any" h)
  | .fromState v k p none, g, t, c, h => nodup_addNodeIfAbsent g k h
  | .fromState v k p (some u), g, t, c, h =>
    fillGraph_nodup u (addNodeIfAbsent g k) t c (nodup_addNodeIfAbsent g k h)

theorem foldl_fillGraph_mem : ∀ (l : List (Strategy × Props)) (g : Graph) (c : Bool)
    (x : String),
    x ∈ (l.foldl (fun g a => (fillGraph a.1 g "target" c).1) g).nodes ↔
      x ∈ g.nodes ∨ ∃ a ∈ l, x ∈ a.1.hopLabels
  | [], g, c, x => by simp
  | a :: rest, g, c, x => by
    simp only [List.foldl_cons, foldl_fillGraph_mem rest, fillGraph_mem_nodes,
      List.mem_cons]
    constructor
    · rintro ((h | h) | ⟨b, hb, hx⟩)
      · exact Or.inl h
      · exact Or.inr ⟨a, Or.inl rfl, h⟩
      · exact Or.inr ⟨b, Or.inr hb, hx⟩
    · rintro (h | ⟨b, (rfl | hb), hx⟩)
      · exact Or.inl (Or.inl h)
      · exact Or.inl (Or.inr hx)
      · exact Or.inr ⟨b, hb, hx⟩

theorem foldl_fillGraph_nodup : ∀ (l : List (Strategy × Props)) (g : Graph) (c : Bool),
    g.nodes.Nodup →
    (l.foldl (fun g a => (fillGraph a.1 g "target" c).1) g).nodes.Nodup
  | [], g, c, h => h
  | a :: rest, g, c, h =>
    foldl_fillGraph_nodup rest _ c (fillGraph_nodup a.1 g "target" c h)

/-- C9: in the graph returned by `as_graph`, nodes are deduplicated by
their identity label: the node-name list has no duplicates, and every hop
label of every registered strategy (the state alias, or the literal
`"any"` for `FromAny`) occurs as the name of exactly one node, so any two
strategies or hops with the same label share that single node. -/
theorem as_graph_dedup_spec (rs : RS) (c : Bool) :
    (rs.asGraph c).nodes.Nodup ∧
    ∀ a ∈ rs.d, ∀ lab ∈ a.1.hopLabels, (rs.asGraph c).nodes.count lab = 1 := by
  have hnd : (rs.asGraph c).nodes.Nodup :=
    foldl_fillGraph_nodup rs.d ⟨["target"], []⟩ c (by simp)
  refine ⟨hnd, fun a ha lab hlab => ?_⟩
  have hm : lab ∈ (rs.asGraph c).nodes :=
    (foldl_fillGraph_mem rs.d ⟨["target"], []⟩ c lab).2 (Or.inr ⟨a, ha, hlab⟩)
  exact List.count_eq_one_of_mem hnd hm

/-! ### Node counts for single-hop collections -/

theorem fillGraph_nodes_single (s : Strategy) (h : s.next = none) (g : Graph)
    (t : String) (c : Bool) :
    (fillGraph s g t c).1.nodes = (addNodeIfAbsent g s.startName).nodes := by
  cases s with
  | fromAny p n =>
    cases n with
    | none => rfl
    | some u => simp [Strategy.next] at h
  | fromState v k p n =>
    cases n with
    | none => rfl
    | some u => simp [Strategy.next] at h

theorem foldl_fillGraph_nodes_single :
    ∀ (l : List (Strategy × Props)) (g : Graph) (c : Bool),
      (∀ a ∈ l, a.1.next = none) →
      (∀ a ∈ l, a.1.startName ∉ g.nodes) →
      (l.map (fun a => a.1.startName)).Nodup →
      (l.foldl (fun g a => (fillGraph a.1 g "target" c).1) g).nodes
        = g.nodes ++ l.map (fun a => a.1.startName)
  | [], g, c, _, _, _ => by simp
  | a :: rest, g, c, hsingle, hfresh, hnodup => by
    have h1 : (fillGraph a.1 g "target" c).1.nodes = g.nodes ++ [a.1.startName] := by
      rw [fillGraph_nodes_single a.1 (hsingle a (List.mem_cons_self a rest)) g "target" c]
      unfold addNodeIfAbsent
      split
      · rename_i h
        exact absurd h (hfresh a (List.mem_cons_self a rest))
      · rfl
    simp only [List.map_cons, List.nodup_cons] at hnodup
    have h2 := foldl_fillGraph_nodes_single rest (fillGraph a.1 g "target" c).1 c
      (fun b hb => hsingle b (List.mem_cons_of_mem a hb))
      (fun b hb => by
        rw [h1]
        simp only [List.mem_append, List.mem_singleton]
        rintro (hmem | heq)
        · exact hfresh b (List.mem_cons_of_mem a hb) hmem
        · exact hnodup.1 (heq ▸ List.mem_map_of_mem (fun x => x.1.startName) hb))
      hnodup.2
    simp only [List.foldl_cons, h2, h1, List.map_cons]
    simp [List.append_assoc]

/-- C3 counterexample: a collection holding a single two-hop strategy
(`FromSteadyState("s0", p, FromAny(p))`) has pairwise-distinct head
labels (there is only one head), yet its graph has two start nodes
(`"s0"` and the intermediate `"any"`), not one per strategy: the claimed
count is not independent of chain length. -/
theorem as_graph_node_count_counterexample :
    ¬ (((RS.new.add (.fromState .steady "s0" ⟨.permanent, [("a", 1)]⟩
          (some (.fromAny ⟨.permanent, [("a", 1)]⟩ none))) []).asGraph false).startNodes.length
        = (RS.new.add (.fromState .steady "s0" ⟨.permanent, [("a", 1)]⟩
          (some (.fromAny ⟨.permanent, [("a", 1)]⟩ none))) []).d.length) := by
  decide

/-- C3 (amended): for a collection of single-hop strategies (every
strategy's `next()` is `None`) whose head start labels are pairwise
distinct and differ from the sink name `"target"`, the graph returned by
`as_graph` contains exactly as many start nodes as strategies, plus
exactly one sink node.  (With longer chains every hop contributes its own
start node, so the count is not independent of chain length.) -/
theorem as_graph_single_hop_node_count (rs : RS) (c : Bool)
    (hsingle : ∀ a ∈ rs.d, a.1.next.isNone = true)
    (hnodup : (rs.d.map (fun a => a.1.startName)).Nodup)
    (htarget : ∀ a ∈ rs.d, a.1.startName ≠ "target") :
    (rs.asGraph c).startNodes.length = rs.d.length ∧
    (rs.asGraph c).nodes.count "target" = 1 := by
  have hnodes : (rs.asGraph c).nodes = "target" :: rs.d.map (fun a => a.1.startName) := by
    have := foldl_fillGraph_nodes_single rs.d ⟨["target"], []⟩ c
      (fun a ha => Option.isNone_iff_eq_none.1 (hsingle a ha))
      (fun a ha => by
        simp only [List.mem_singleton]
        exact htarget a ha)
      hnodup
    simpa [RS.asGraph] using this
  constructor
  · rw [Graph.startNodes, hnodes]
    have h1 : (("target" : String) != "target") = false := by simp
    rw [List.filter_cons_of_neg (by simp)]
    rw [List.filter_eq_self.2 (fun a ha => by
      rcases List.mem_map.1 ha with ⟨b, hb, hba⟩
      simpa [hba.symm] using htarget b hb)]
    exact List.length_map _ _
  · rw [hnodes, List.count_cons_self]
    have : (rs.d.map (fun a => a.1.startName)).count "target" = 0 := by
      rw [List.count_eq_zero]
      intro hmem
      rcases List.mem_map.1 hmem with ⟨b, hb, hba⟩
      exact htarget b hb hba
    omega

theorem as_graph_single_hop_node_count_witness :
    (((RS.new.add (.fromState .steady "s0" ⟨.permanent, [("a", 1)]⟩ none) []).add
        (.fromAny ⟨.temporary, [("b", 0)]⟩ none) []).asGraph false).startNodes.length
      = ((RS.new.add (.fromState .steady "s0" ⟨.permanent, [("a", 1)]⟩ none) []).add
        (.fromAny ⟨.temporary, [("b", 0)]⟩ none) []).d.length
    ∧ (((RS.new.add (.fromState .steady "s0" ⟨.permanent, [("a", 1)]⟩ none) []).add
        (.fromAny ⟨.temporary, [("b", 0)]⟩ none) []).asGraph false).nodes.count "target" = 1 :=
  as_graph_single_hop_node_count _ false (by decide) (by decide) (by decide)

/-! ### Table projection: the Boolean value-domain check -/

theorem foldPertItems_ok_iff : ∀ (items : List (String × Int)) (m : List (String × List Int)),
    isOkE (foldPertItems items m) = true ↔ ∀ kv ∈ items, kv.2 = 0 ∨ kv.2 = 1
  | [], m => by simp [foldPertItems, isOkE]
  | (n, v) :: rest, m => by
    unfold foldPertItems
    split
    · rename_i h
      simp only [foldPertItems_ok_iff rest, List.mem_cons]
      constructor
      · rintro hrest kv (rfl | hkv)
        · exact h
        · exact hrest kv hkv
      · intro hall kv hkv
        exact hall kv (Or.inr hkv)
    · rename_i h
      simp only [isOkE, Bool.false_eq_true, false_iff]
      intro hall
      exact h (hall (n, v) (List.mem_cons_self _ _))

theorem collectMods_ok_iff : ∀ (ps : List Perturbation) (m : List (String × List Int)),
    isOkE (collectMods ps m) = true ↔
      ∀ p ∈ ps, ∀ kv ∈ p.state, kv.2 = 0 ∨ kv.2 = 1
  | [], m => by simp [collectMods, isOkE]
  | p :: ps, m => by
    unfold collectMods
    cases hfold : foldPertItems p.state m with
    | error e =>
      have hbad : ¬ ∀ kv ∈ p.state, kv.2 = 0 ∨ kv.2 = 1 := by
        intro hall
        have := (foldPertItems_ok_iff p.state m).2 hall
        rw [hfold] at this
        simp [isOkE] at this
      simp only [isOkE, Bool.false_eq_true, false_iff]
      intro hall
      exact hbad (hall p (List.mem_cons_self _ _))
    | ok m2 =>
      have hgood : ∀ kv ∈ p.state, kv.2 = 0 ∨ kv.2 = 1 := by
        have := (foldPertItems_ok_iff p.state m).1 (by rw [hfold]; rfl)
        exact this
      simp only [collectMods_ok_iff ps, List.mem_cons]
      constructor
      · rintro hrest q (rfl | hq)
        · exact hgood
        · exact hrest q hq
      · intro hall q hq
        exact hall q (Or.inr hq)

theorem tableAccum_ok_iff : ∀ (l : List (Strategy × Props))
    (acc : List (List (String × List Int))),
    isOkE (tableAccum l acc) = true ↔
      ∀ a ∈ l, ∀ p ∈ a.1.perturbationSequence, ∀ kv ∈ p.state, kv.2 = 0 ∨ kv.2 = 1
  | [], acc => by simp [tableAccum, isOkE]
  | a :: l, acc => by
    unfold tableAccum
    cases hcol : collectMods a.1.perturbationSequence [] with
    | error e =>
      have hbad : ¬ ∀ p ∈ a.1.perturbationSequence, ∀ kv ∈ p.state, kv.2 = 0 ∨ kv.2 = 1 := by
        intro hall
        have := (collectMods_ok_iff a.1.perturbationSequence []).2 hall
        rw [hcol] at this
        simp [isOkE] at this
      simp only [isOkE, Bool.false_eq_true, false_iff]
      intro hall
      exact hbad (hall a (List.mem_cons_self _ _))
    | ok mods =>
      have hgood : ∀ p ∈ a.1.perturbationSequence, ∀ kv ∈ p.state, kv.2 = 0 ∨ kv.2 = 1 :=
        (collectMods_ok_iff a.1.perturbationSequence []).1 (by rw [hcol]; rfl)
      simp only [tableAccum_ok_iff l, List.mem_cons]
      constructor
      · rintro hrest b (rfl | hb)
        · exact hgood
        · exact hrest b hb
      · intro hall b hb
        exact hall b (Or.inr hb)

theorem asTableRows_ok_eq (rs : RS) :
    isOkE rs.asTableRows = isOkE (tableAccum rs.d []) := by
  unfold RS.asTableRows
  cases h : tableAccum rs.d [] <;> rfl

/-- C4: if any perturbation in any held strategy's perturbation sequence
assigns a component a value outside `{0,1}`, `as_table()` fails (the
`assert v == 0 or v == 1` raises) rather than silently coercing the
value; if every assigned value is `0` or `1`, the projection succeeds. -/
theorem as_table_value_domain_spec (rs : RS) :
    ((∃ a ∈ rs.d, ∃ p ∈ a.1.perturbationSequence, ∃ kv ∈ p.state,
        kv.2 ≠ 0 ∧ kv.2 ≠ 1) →
      isOkE rs.asTableRows = false)
    ∧ ((∀ a ∈ rs.d, ∀ p ∈ a.1.perturbationSequence, ∀ kv ∈ p.state,
        kv.2 = 0 ∨ kv.2 = 1) →
      isOkE rs.asTableRows = true) := by
  constructor
  · rintro ⟨a, ha, p, hp, kv, hkv, h0, h1⟩
    rw [asTableRows_ok_eq]
    cases h : isOkE (tableAccum rs.d []) with
    | false => rfl
    | true =>
      have hall := (tableAccum_ok_iff rs.d []).1 h
      rcases hall a ha p hp kv hkv with h | h
      · exact absurd h h0
      · exact absurd h h1
  · intro hall
    rw [asTableRows_ok_eq]
    exact (tableAccum_ok_iff rs.d []).2 hall

theorem as_table_value_domain_witness :
    isOkE (RS.new.add (.fromAny ⟨.permanent, [("a", 2)]⟩ none) []).asTableRows = false
    ∧ isOkE (RS.new.add (.fromAny ⟨.permanent, [("a", 1)]⟩ none) []).asTableRows = true :=
  ⟨(as_table_value_domain_spec _).1 (by decide),
   (as_table_value_domain_spec _).2 (by decide)⟩

/-! ### Decimal rendering: correctness and injectivity -/

/-- Decodes a digit string back to the number it denotes; used only to
prove that the rendering is injective. -/
def decodeDigits (l : List Char) : Nat :=
  l.foldl (fun a c => a * 10 + (c.toNat - 48)) 0

theorem digitChar_toNat (d : Nat) (h : d < 10) : (Nat.digitChar d).toNat - 48 = d := by
  interval_cases d <;> rfl

theorem digitChar_clean (d : Nat) (h : d < 10) :
    Nat.digitChar d ≠ '=' ∧ Nat.digitChar d ≠ ',' ∧ Nat.digitChar d ≠ '-' := by
  interval_cases d <;> exact ⟨by decide, by decide, by decide⟩

theorem natCharsAux_foldl : ∀ (fuel n : Nat), n ≤ fuel → ∀ a : Nat,
    List.foldl (fun a c => a * 10 + (c.toNat - 48)) a (natCharsAux fuel n)
      = a * 10 ^ (natCharsAux fuel n).length + n
  | 0, n, h, a => by
    have : n = 0 := Nat.le_zero.1 h
    simp [natCharsAux, this]
  | fuel + 1, n, h, a => by
    unfold natCharsAux
    split
    · rename_i h0
      simp [h0]
    · rename_i h0
      have hdiv : n / 10 ≤ fuel := by
        have hlt : n / 10 < n := Nat.div_lt_self (Nat.pos_of_ne_zero h0) (by omega)
        omega
      rw [List.foldl_append]
      rw [natCharsAux_foldl fuel (n / 10) hdiv a]
      simp only [List.foldl_cons, List.foldl_nil, List.length_append, List.length_cons,
        List.length_nil]
      rw [digitChar_toNat (n % 10) (Nat.mod_lt n (by omega))]
      rw [pow_succ]
      have := Nat.div_add_mod n 10
      ring_nf
      omega

theorem decode_natChars (n : Nat) : decodeDigits (natChars n) = n := by
  unfold natChars
  split
  · rename_i h
    simp [decodeDigits, h]
  · exact (natCharsAux_foldl n n le_rfl 0).trans (by simp)

theorem natChars_inj {a b : Nat} (h : natChars a = natChars b) : a = b := by
  have := decode_natChars a
  rw [h, decode_natChars b] at this
  omega

theorem natCharsAux_chars : ∀ (fuel n : Nat) (c : Char), c ∈ natCharsAux fuel n →
    ∃ d, d < 10 ∧ c = Nat.digitChar d
  | 0, n, c, h => by simp [natCharsAux] at h
  | fuel + 1, n, c, h => by
    unfold natCharsAux at h
    split at h
    · simp at h
    · rcases List.mem_append.1 h with h1 | h1
      · exact natCharsAux_chars fuel (n / 10) c h1
      · exact ⟨n % 10, Nat.mod_lt n (by omega), (List.mem_singleton.1 h1)⟩

theorem natChars_clean (n : Nat) (c : Char) (h : c ∈ natChars n) :
    c ≠ '=' ∧ c ≠ ',' ∧ c ≠ '-' := by
  unfold natChars at h
  split at h
  · rw [List.mem_singleton.1 h]
    exact ⟨by decide, by decide, by decide⟩
  · rcases natCharsAux_chars n n c h with ⟨d, hd, rfl⟩
    exact digitChar_clean d hd

theorem natChars_ne_nil (n : Nat) : natChars n ≠ [] := by
  unfold natChars
  split
  · simp
  · rename_i h
    cases n with
    | zero => exact absurd rfl h
    | succ m => simp [natCharsAux, Nat.succ_ne_zero]

theorem intChars_clean (v : Int) (c : Char) (h : c ∈ intChars v) :
    c ≠ '=' ∧ c ≠ ',' := by
  unfold intChars at h
  split at h
  · rcases List.mem_cons.1 h with rfl | h1
    · exact ⟨by decide, by decide⟩
    · exact ⟨(natChars_clean _ c h1).1, (natChars_clean _ c h1).2.1⟩
  · exact ⟨(natChars_clean _ c h).1, (natChars_clean _ c h).2.1⟩

theorem intChars_inj {a b : Int} (h : intChars a = intChars b) : a = b := by
  unfold intChars at h
  split at h <;> split at h
  · rename_i ha hb
    injection h with h1 h2
    have := natChars_inj h2
    omega
  · rename_i ha hb
    exfalso
    have hm : ('-' : Char) ∈ natChars b.toNat := by
      rw [← h]; exact List.mem_cons_self _ _
    exact (natChars_clean _ '-' hm).2.2 rfl
  · rename_i ha hb
    exfalso
    have hm : ('-' : Char) ∈ natChars a.toNat := by
      rw [h]; exact List.mem_cons_self _ _
    exact (natChars_clean _ '-' hm).2.2 rfl
  · rename_i ha hb
    have := natChars_inj h
    omega

/-! ### Injectivity of the rendered item list -/

/-- A component name avoiding the separator characters of the rendering
(`=` and `,`). -/
def keyClean (k : String) : Prop := ∀ c ∈ k.data, c ≠ '=' ∧ c ≠ ','

/-- All component names of a partial state are separator-free. -/
def stateKeysClean (st : PState) : Prop := ∀ kv ∈ st, keyClean kv.1

/-- The keys of a partial state are pairwise distinct (`dict` semantics). -/
def keysNodup (st : PState) : Prop := (st.map (fun kv => kv.1)).Nodup

instance (k : String) : Decidable (keyClean k) :=
  inferInstanceAs (Decidable (∀ c ∈ k.data, c ≠ '=' ∧ c ≠ ','))

instance (st : PState) : Decidable (stateKeysClean st) :=
  inferInstanceAs (Decidable (∀ kv ∈ st, keyClean kv.1))

instance (st : PState) : Decidable (keysNodup st) :=
  inferInstanceAs (Decidable ((st.map (fun kv : String × Int => kv.1)).Nodup))

theorem append_cons_sep_inj (sep : Char) : ∀ (a1 a2 b1 b2 : List Char),
    (∀ c ∈ a1, c ≠ sep) → (∀ c ∈ a2, c ≠ sep) →
    a1 ++ sep :: b1 = a2 ++ sep :: b2 → a1 = a2 ∧ b1 = b2
  | [], [], b1, b2, _, _, heq => by
    simp only [List.nil_append] at heq
    exact ⟨rfl, (List.cons.inj heq).2⟩
  | [], c :: a2, b1, b2, h1, h2, heq => by
    simp only [List.nil_append, List.cons_append] at heq
    exact absurd (List.cons.inj heq).1.symm (h2 c (List.mem_cons_self _ _))
  | c :: a1, [], b1, b2, h1, h2, heq => by
    simp only [List.nil_append, List.cons_append] at heq
    exact absurd (List.cons.inj heq).1 (h1 c (List.mem_cons_self _ _))
  | c :: a1, c2 :: a2, b1, b2, h1, h2, heq => by
    simp only [List.cons_append] at heq
    have hc := (List.cons.inj heq).1
    have hrest := append_cons_sep_inj sep a1 a2 b1 b2
      (fun x hx => h1 x (List.mem_cons_of_mem c hx))
      (fun x hx => h2 x (List.mem_cons_of_mem c2 hx))
      (List.cons.inj heq).2
    exact ⟨by rw [hc, hrest.1], hrest.2⟩

theorem entryChars_no_comma (kv : String × Int) (h : keyClean kv.1) :
    ∀ c ∈ entryChars kv, c ≠ ',' := by
  intro c hc
  unfold entryChars at hc
  rcases List.mem_append.1 hc with h1 | h1
  · exact (h c h1).2
  · rcases List.mem_cons.1 h1 with rfl | h2
    · decide
    · exact (intChars_clean kv.2 c h2).2

theorem entryChars_ne_nil (kv : String × Int) : entryChars kv ≠ [] := by
  unfold entryChars
  simp

theorem entryChars_inj (kv1 kv2 : String × Int) (h1 : keyClean kv1.1)
    (h2 : keyClean kv2.1) (heq : entryChars kv1 = entryChars kv2) : kv1 = kv2 := by
  unfold entryChars at heq
  have := append_cons_sep_inj '=' kv1.1.data kv2.1.data (intChars kv1.2) (intChars kv2.2)
    (fun c hc => (h1 c hc).1) (fun c hc => (h2 c hc).1) heq
  rcases kv1 with ⟨⟨d1⟩, v1⟩
  rcases kv2 with ⟨⟨d2⟩, v2⟩
  simp only at this
  exact Prod.ext (by rw [this.1]) (intChars_inj this.2)

theorem joinChars_entries_inj : ∀ (l1 l2 : List (List Char)),
    (∀ e ∈ l1, e ≠ [] ∧ ∀ c ∈ e, c ≠ ',') →
    (∀ e ∈ l2, e ≠ [] ∧ ∀ c ∈ e, c ≠ ',') →
    joinChars [',', ' '] l1 = joinChars [',', ' '] l2 → l1 = l2
  | [], [], _, _, _ => rfl
  | [], [x], _, h2, heq => by
    exact absurd (by simpa [joinChars] using heq.symm) (h2 x (List.mem_cons_self _ _)).1
  | [x], [], h1, _, heq => by
    exact absurd (by simpa [joinChars] using heq) (h1 x (List.mem_cons_self _ _)).1
  | [], x :: y :: ys, _, h2, heq => by
    exfalso
    have heq2 : ([] : List Char) = x ++ [',', ' '] ++ joinChars [',', ' '] (y :: ys) := heq
    have := congrArg List.length heq2
    simp only [List.length_nil, List.length_append, List.length_cons] at this
    omega
  | x :: y :: ys, [], h1, _, heq => by
    exfalso
    have heq2 : x ++ [',', ' '] ++ joinChars [',', ' '] (y :: ys) = ([] : List Char) := heq
    have := congrArg List.length heq2
    simp only [List.length_nil, List.length_append, List.length_cons] at this
    omega
  | [x], [z], _, _, heq => by
    simpa [joinChars] using heq
  | [x], z :: w :: ws, h1, h2, heq => by
    exfalso
    have heq2 : x = z ++ [',', ' '] ++ joinChars [',', ' '] (w :: ws) := heq
    have hmem : (',' : Char) ∈ x := by
      rw [heq2]
      refine List.mem_append.2 (Or.inl ?_)
      simp
    exact (h1 x (List.mem_cons_self _ _)).2 ',' hmem rfl
  | x :: y :: ys, [z], h1, h2, heq => by
    exfalso
    have heq2 : x ++ [',', ' '] ++ joinChars [',', ' '] (y :: ys) = z := heq
    have hmem : (',' : Char) ∈ z := by
      rw [← heq2]
      refine List.mem_append.2 (Or.inl ?_)
      simp
    exact (h2 z (List.mem_cons_self _ _)).2 ',' hmem rfl
  | x :: y :: ys, z :: w :: ws, h1, h2, heq => by
    simp only [joinChars] at heq
    rw [List.append_assoc, List.append_assoc] at heq
    simp only [List.cons_append, List.nil_append] at heq
    have hsplit := append_cons_sep_inj ',' x z _ _
      (h1 x (List.mem_cons_self _ _)).2 (h2 z (List.mem_cons_self _ _)).2 heq
    have htail := joinChars_entries_inj (y :: ys) (w :: ws)
      (fun e he => h1 e (List.mem_cons_of_mem x he))
      (fun e he => h2 e (List.mem_cons_of_mem z he))
      ((List.cons.inj hsplit.2).2)
    rw [hsplit.1, htail]

/-! ### The sort order on state items -/

theorem char_toNat_inj {c d : Char} (h : c.toNat = d.toNat) : c = d := by
  apply Char.eq_of_val_eq
  apply UInt32.eq_of_toBitVec_eq
  exact BitVec.eq_of_toNat_eq h

theorem string_data_inj {s t : String} (h : s.data = t.data) : s = t := by
  cases s
  cases t
  exact congrArg String.mk h

theorem strLtB_cons_iff {x y : Char} {xs ys : List Char} :
    strLtB (x :: xs) (y :: ys) = true ↔
      x.toNat < y.toNat ∨ (x = y ∧ strLtB xs ys = true) := by
  have hdef : strLtB (x :: xs) (y :: ys) =
      if x.toNat < y.toNat then true
      else if y.toNat < x.toNat then false
      else strLtB xs ys := rfl
  rw [hdef]
  split
  · rename_i h
    simp [h]
  · split
    · rename_i h h2
      simp only [Bool.false_eq_true, false_iff]
      rintro (h3 | ⟨rfl, h3⟩)
      · omega
      · omega
    · rename_i h h2
      have hxy : x = y := char_toNat_inj (by omega)
      subst hxy
      simp

theorem strLtB_irrefl : ∀ a : List Char, strLtB a a = false
  | [] => rfl
  | c :: a => by simp [strLtB, Nat.lt_irrefl, strLtB_irrefl a]

theorem strLtB_trans : ∀ (a b c : List Char), strLtB a b = true →
    strLtB b c = true → strLtB a c = true
  | [], [], _, h1, _ => by simp [strLtB] at h1
  | [], _ :: _, [], _, h2 => by simp [strLtB] at h2
  | [], _ :: _, _ :: _, _, _ => rfl
  | _ :: _, [], _, h1, _ => by simp [strLtB] at h1
  | _ :: _, _ :: _, [], _, h2 => by simp [strLtB] at h2
  | x :: xs, y :: ys, z :: zs, h1, h2 => by
    rcases strLtB_cons_iff.1 h1 with hx | ⟨rfl, hx⟩ <;>
      rcases strLtB_cons_iff.1 h2 with hy | ⟨rfl, hy⟩
    · exact strLtB_cons_iff.2 (Or.inl (by omega))
    · exact strLtB_cons_iff.2 (Or.inl hx)
    · exact strLtB_cons_iff.2 (Or.inl hy)
    · exact strLtB_cons_iff.2 (Or.inr ⟨rfl, strLtB_trans xs ys zs hx hy⟩)

theorem strLtB_asymm : ∀ (a b : List Char), strLtB a b = true →
    strLtB b a = true → False
  | [], [], h1, _ => by simp [strLtB] at h1
  | [], _ :: _, _, h2 => by simp [strLtB] at h2
  | _ :: _, [], h1, _ => by simp [strLtB] at h1
  | x :: xs, y :: ys, h1, h2 => by
    rcases strLtB_cons_iff.1 h1 with hx | ⟨rfl, hx⟩ <;>
      rcases strLtB_cons_iff.1 h2 with hy | ⟨heq, hy⟩
    · omega
    · subst heq
      omega
    · omega
    · exact strLtB_asymm xs ys hx hy

theorem strLtB_eq_of_not : ∀ (a b : List Char), strLtB a b = false →
    strLtB b a = false → a = b
  | [], [], _, _ => rfl
  | [], _ :: _, h1, _ => by simp [strLtB] at h1
  | _ :: _, [], _, h2 => by simp [strLtB] at h2
  | x :: xs, y :: ys, h1, h2 => by
    have hx : ¬ x.toNat < y.toNat := by
      intro h
      rw [strLtB_cons_iff.2 (Or.inl h)] at h1
      exact Bool.noConfusion h1
    have hy : ¬ y.toNat < x.toNat := by
      intro h
      rw [strLtB_cons_iff.2 (Or.inl h)] at h2
      exact Bool.noConfusion h2
    have hxy : x = y := char_toNat_inj (by omega)
    subst hxy
    have hrec1 : strLtB xs ys = false := by
      cases h : strLtB xs ys with
      | false => rfl
      | true =>
        rw [strLtB_cons_iff.2 (Or.inr ⟨rfl, h⟩)] at h1
        simp at h1
    have hrec2 : strLtB ys xs = false := by
      cases h : strLtB ys xs with
      | false => rfl
      | true =>
        rw [strLtB_cons_iff.2 (Or.inr ⟨rfl, h⟩)] at h2
        simp at h2
    rw [strLtB_eq_of_not xs ys hrec1 hrec2]

instance : IsTotal (String × Int) pairLe :=
  ⟨fun a b => by
    unfold pairLe
    cases hab : strLtB a.1.data b.1.data with
    | true => exact Or.inl (Or.inl rfl)
    | false =>
      cases hba : strLtB b.1.data a.1.data with
      | true => exact Or.inr (Or.inl rfl)
      | false =>
        have hk : a.1 = b.1 := string_data_inj (strLtB_eq_of_not _ _ hab hba)
        rcases le_total a.2 b.2 with h2 | h2
        · exact Or.inl (Or.inr ⟨hk, h2⟩)
        · exact Or.inr (Or.inr ⟨hk.symm, h2⟩)⟩

instance : IsTrans (String × Int) pairLe :=
  ⟨fun a b c hab hbc => by
    unfold pairLe at *
    rcases hab with h1 | ⟨h1, h1v⟩ <;> rcases hbc with h2 | ⟨h2, h2v⟩
    · exact Or.inl (strLtB_trans _ _ _ h1 h2)
    · exact Or.inl (h2 ▸ h1)
    · exact Or.inl (h1 ▸ h2)
    · exact Or.inr ⟨h1.trans h2, h1v.trans h2v⟩⟩

instance : IsAntisymm (String × Int) pairLe :=
  ⟨fun a b hab hba => by
    unfold pairLe at *
    rcases hab with h1 | ⟨h1, h1v⟩ <;> rcases hba with h2 | ⟨h2, h2v⟩
    · exact absurd (strLtB_trans _ _ _ h1 h2) (by rw [strLtB_irrefl]; simp)
    · exact absurd h1 (by rw [h2, strLtB_irrefl]; simp)
    · exact absurd h2 (by rw [h1, strLtB_irrefl]; simp)
    · exact Prod.ext h1 (le_antisymm h1v h2v)⟩

theorem sortItems_eq_of_perm {st1 st2 : PState} (h : st1.Perm st2) :
    sortItems st1 = sortItems st2 :=
  List.eq_of_perm_of_sorted
    ((List.perm_insertionSort pairLe st1).trans
      (h.trans (List.perm_insertionSort pairLe st2).symm))
    (List.sorted_insertionSort pairLe st1)
    (List.sorted_insertionSort pairLe st2)

theorem perm_of_sortItems_eq {st1 st2 : PState} (h : sortItems st1 = sortItems st2) :
    st1.Perm st2 := by
  have p2 : sortItems st1 |>.Perm st2 := by
    rw [h]
    exact List.perm_insertionSort pairLe st2
  exact (List.perm_insertionSort pairLe st1).symm.trans p2

theorem reprArgsChars_inj (st1 st2 : PState) (h1 : stateKeysClean st1)
    (h2 : stateKeysClean st2) (heq : reprArgsChars st1 = reprArgsChars st2) :
    st1.Perm st2 := by
  unfold reprArgsChars at heq
  have hmap := joinChars_entries_inj _ _
    (fun e he => by
      rcases List.mem_map.1 he with ⟨kv, hkv, rfl⟩
      have hkv2 : kv ∈ st1 := (List.mem_insertionSort pairLe).1 hkv
      exact ⟨entryChars_ne_nil kv, entryChars_no_comma kv (h1 kv hkv2)⟩)
    (fun e he => by
      rcases List.mem_map.1 he with ⟨kv, hkv, rfl⟩
      have hkv2 : kv ∈ st2 := (List.mem_insertionSort pairLe).1 hkv
      exact ⟨entryChars_ne_nil kv, entryChars_no_comma kv (h2 kv hkv2)⟩)
    heq
  have hsorted : sortItems st1 = sortItems st2 := by
    clear heq
    have hc1 : ∀ kv ∈ sortItems st1, keyClean kv.1 :=
      fun kv hkv => h1 kv ((List.mem_insertionSort pairLe).1 hkv)
    have hc2 : ∀ kv ∈ sortItems st2, keyClean kv.1 :=
      fun kv hkv => h2 kv ((List.mem_insertionSort pairLe).1 hkv)
    revert hmap hc1 hc2
    generalize sortItems st1 = u1
    generalize sortItems st2 = u2
    induction u1 generalizing u2 with
    | nil =>
      intro hmap _ _
      cases u2 with
      | nil => rfl
      | cons b u2 => simp at hmap
    | cons a u1 ih =>
      intro hmap hc1 hc2
      cases u2 with
      | nil => simp at hmap
      | cons b u2 =>
        simp only [List.map_cons, List.cons.injEq] at hmap
        have ha := entryChars_inj a b (hc1 a (List.mem_cons_self _ _))
          (hc2 b (List.mem_cons_self _ _)) hmap.1
        have ht := ih u2 hmap.2
          (fun kv hkv => hc1 kv (List.mem_cons_of_mem a hkv))
          (fun kv hkv => hc2 kv (List.mem_cons_of_mem b hkv))
        rw [ha, ht]
  exact perm_of_sortItems_eq hsorted

/-! ### Structural equality of perturbations via `repr` -/

theorem reprChars_headD (p : Perturbation) :
    (reprChars p).headD ' ' = p.kind.initialChar := by
  cases p with
  | mk k s => cases k <;> rfl

theorem initialChar_inj {k1 k2 : PKind} (h : k1.initialChar = k2.initialChar) :
    k1 = k2 := by
  cases k1 <;> cases k2 <;> first | rfl | exact absurd h (by decide)

theorem reprChars_kind_eq {p q : Perturbation} (h : reprChars p = reprChars q) :
    p.kind = q.kind := by
  have h2 : (reprChars p).headD ' ' = (reprChars q).headD ' ' := by rw [h]
  rw [reprChars_headD, reprChars_headD] at h2
  exact initialChar_inj h2

theorem reprChars_args_eq {p q : Perturbation} (hk : p.kind = q.kind)
    (h : reprChars p = reprChars q) :
    reprArgsChars p.state = reprArgsChars q.state := by
  unfold reprChars at h
  rw [hk] at h
  have h2 := List.append_cancel_left h
  have h3 := (List.cons.inj h2).2
  exact List.append_cancel_right h3

theorem pyEq_iff (p q : Perturbation) :
    pyEq p q = true ↔ reprChars p = reprChars q := by
  unfold pyEq pyRepr
  rw [beq_iff_eq]
  constructor
  · intro h
    exact congrArg String.data h
  · intro h
    exact congrArg String.mk h

/-- C5 counterexample: the claim's inequality direction fails when a key
embeds the rendered separators.  The states `{"a=1, b": 2}` and
`{"a": 1, "b": 2}` have different (key, value) sets (and valid, pairwise
distinct dict keys), yet both render as `PermanentPerturbation(a=1, b=2)`,
so the two perturbations compare equal under `__eq__`. -/
theorem perturbation_eq_collision :
    pyEq ⟨.permanent, [("a=1, b", 2)]⟩ ⟨.permanent, [("a", 1), ("b", 2)]⟩ = true
    ∧ keysNodup [(("a=1, b" : String), (2 : Int))]
    ∧ keysNodup [(("a" : String), (1 : Int)), ("b", 2)]
    ∧ ¬ (∀ kv : String × Int, kv ∈ [(("a=1, b" : String), (2 : Int))] ↔
          kv ∈ [(("a" : String), (1 : Int)), ("b", 2)]) := by
  refine ⟨by decide, by decide, by decide, fun h => ?_⟩
  exact absurd ((h ("a=1, b", 2)).1 (List.mem_singleton_self _)) (by decide)

/-- C5 (amended): for perturbations with dict-valid (pairwise distinct)
keys: same kind and identical (key, value) sets, in any insertion order,
give `p1 == p2` and `hash(p1) == hash(p2)`; different kinds are unequal;
and different (key, value) sets are unequal provided the keys contain
neither `=` nor `,` — keys embedding those separator characters can make
distinct states render identically and compare equal. -/
theorem perturbation_structural_eq (k1 k2 : PKind) (s1 s2 : PState)
    (hn1 : keysNodup s1) (hn2 : keysNodup s2) :
    (k1 = k2 → (∀ kv : String × Int, kv ∈ s1 ↔ kv ∈ s2) →
      pyEq ⟨k1, s1⟩ ⟨k2, s2⟩ = true ∧ pyHash ⟨k1, s1⟩ = pyHash ⟨k2, s2⟩)
    ∧ (k1 ≠ k2 → pyEq ⟨k1, s1⟩ ⟨k2, s2⟩ = false)
    ∧ (k1 = k2 → stateKeysClean s1 → stateKeysClean s2 →
      ¬ (∀ kv : String × Int, kv ∈ s1 ↔ kv ∈ s2) →
      pyEq ⟨k1, s1⟩ ⟨k2, s2⟩ = false) := by
  refine ⟨?_, ?_, ?_⟩
  · rintro rfl hset
    have nd1 : s1.Nodup := List.Nodup.of_map _ hn1
    have nd2 : s2.Nodup := List.Nodup.of_map _ hn2
    have hperm : s1.Perm s2 := (List.perm_ext_iff_of_nodup nd1 nd2).2 hset
    have hr : reprChars ⟨k1, s1⟩ = reprChars ⟨k1, s2⟩ := by
      have hs := sortItems_eq_of_perm hperm
      simp only [reprChars, reprArgsChars, hs]
    exact ⟨(pyEq_iff _ _).2 hr, by simp only [pyHash, pyRepr, hr]⟩
  · intro hne
    cases hb : pyEq ⟨k1, s1⟩ ⟨k2, s2⟩ with
    | false => rfl
    | true => exact absurd (reprChars_kind_eq ((pyEq_iff _ _).1 hb)) hne
  · rintro rfl hc1 hc2 hset
    cases hb : pyEq ⟨k1, s1⟩ ⟨k1, s2⟩ with
    | false => rfl
    | true =>
      have hr := (pyEq_iff _ _).1 hb
      have hk : (Perturbation.mk k1 s1).kind = (Perturbation.mk k1 s2).kind := rfl
      have hargs := reprChars_args_eq hk hr
      have hperm := reprArgsChars_inj s1 s2 hc1 hc2 hargs
      exact absurd (fun kv => hperm.mem_iff) hset

theorem perturbation_structural_eq_witness :
    (pyEq ⟨.permanent, [("a", 1), ("b", 0)]⟩ ⟨.permanent, [("b", 0), ("a", 1)]⟩ = true
      ∧ pyHash ⟨.permanent, [("a", 1), ("b", 0)]⟩ = pyHash ⟨.permanent, [("b", 0), ("a", 1)]⟩)
    ∧ pyEq ⟨.permanent, [("a", 1)]⟩ ⟨.temporary, [("a", 1)]⟩ = false
    ∧ pyEq ⟨.permanent, [("a", 1)]⟩ ⟨.permanent, [("a", 0)]⟩ = false :=
  ⟨(perturbation_structural_eq .permanent .permanent [("a", 1), ("b", 0)]
      [("b", 0), ("a", 1)] (by decide) (by decide)).1 rfl
      (fun kv => by
        simp only [List.mem_cons, List.mem_singleton, List.not_mem_nil, or_false]
        exact or_comm),
   (perturbation_structural_eq .permanent .temporary [("a", 1)] [("a", 1)]
      (by decide) (by decide)).2.1 (by decide),
   (perturbation_structural_eq .permanent .permanent [("a", 1)] [("a", 0)]
      (by decide) (by decide)).2.2 rfl (by decide) (by decide)
      (fun h => absurd ((h ("a", 1)).1 (List.mem_singleton_self _)) (by decide))⟩

end ART
